import Mathlib

set_option maxRecDepth 8000

/-!
A shallow embedding of the WhatsApp MCQ extraction pipeline:
transcript preprocessing (component_1_preprocessing.py), stem
identification (component_2_stem_identification.py), option extraction
and refined grouping (component_4_refined_grouping.py), and the
result-combination step of processing.py.  Program strings are modelled
as explicit character lists so every operation computes by kernel
reduction.  Each definition mirrors one Python function or regex of the
source; comments point to the mirrored construct.
-/

namespace MCQ

/-- Program strings as character lists. -/
abbrev Str := List Char

/-- Whitespace as treated by Python str.strip / regex backslash-s for the
character set occurring in transcripts. -/
def isWs (c : Char) : Bool :=
  c == ' ' || c == '\t' || c == '\n' || c == '\r'

def dropTrailingWs (s : Str) : Str :=
  (s.reverse.dropWhile isWs).reverse

/-- Python str.strip. -/
def pyStrip (s : Str) : Str :=
  dropTrailingWs (s.dropWhile isWs)

/-- ASCII lowering; Python str.lower on the ASCII texts handled here. -/
def asciiLower (c : Char) : Char :=
  if 'A' ≤ c ∧ c ≤ 'Z' then Char.ofNat (c.toNat + 32) else c

/-- Python str.lower. -/
def pyLower (s : Str) : Str := s.map asciiLower

/-- Python str.split(sep) for a one-character separator (keeps empty parts,
returns one empty part for the empty string, like Python). -/
def splitOnChar (sep : Char) : Str → List Str
  | [] => [[]]
  | c :: rest =>
    let r := splitOnChar sep rest
    if c == sep then [] :: r
    else
      match r with
      | h :: t => (c :: h) :: t
      | [] => [[c]]

/-- Python str.splitlines for newline-separated text (the transcripts in
this development use only the \n line terminator). -/
def pySplitlines (s : Str) : List Str :=
  if s = [] then []
  else
    let parts := splitOnChar '\n' s
    match parts.getLast? with
    | some [] => parts.dropLast
    | _ => parts

/-- Python str.split() with no argument: split on whitespace runs. -/
def pySplitWsAux : Str → Str → List Str
  | [], cur => if cur = [] then [] else [cur.reverse]
  | c :: r, cur =>
    if isWs c then
      if cur = [] then pySplitWsAux r [] else cur.reverse :: pySplitWsAux r []
    else pySplitWsAux r (c :: cur)

def pySplitWs (s : Str) : List Str := pySplitWsAux s []

/-- Python substring containment (needle in haystack). -/
def containsSub (needle : Str) : Str → Bool
  | [] => needle.isEmpty
  | c :: t => needle.isPrefixOf (c :: t) || containsSub needle t

/-- Python str.endswith. -/
def endsWith (needle s : Str) : Bool := needle.isSuffixOf s

/-! ### The option-marker regexes of component_4_refined_grouping.py -/

/-- A letter of the character class [a-d] under IGNORECASE. -/
def isMarkerLetter (c : Char) : Bool :=
  let l := asciiLower c
  l == 'a' || l == 'b' || l == 'c' || l == 'd'

/-- A digit of the character class [1-4]. -/
def isMarkerDigit (c : Char) : Bool :=
  c == '1' || c == '2' || c == '3' || c == '4'

/-- A bullet of the character class [-•*]. -/
def isBullet (c : Char) : Bool :=
  c == '-' || c == '•' || c == '*'

/-- Punctuation following a letter or digit marker: . or ) or : . -/
def isMarkerPunct (c : Char) : Bool :=
  c == '.' || c == ')' || c == ':'

/-- Matching of option_marker_regex, the anchored pattern
whitespace-star, then [a-d] or [1-4] followed by one of . ) : or a
bullet [-•*], then whitespace-plus.  Returns the text after the whole
match (including the greedy run of trailing whitespace) on success. -/
def matchOptionMarker (s : Str) : Option Str :=
  let t := s.dropWhile isWs
  match t with
  | c1 :: c2 :: rest =>
    if (isMarkerLetter c1 || isMarkerDigit c1) && isMarkerPunct c2 then
      match rest with
      | c3 :: _ => if isWs c3 then some (rest.dropWhile isWs) else none
      | [] => none
    else if isBullet c1 then
      if isWs c2 then some ((c2 :: rest).dropWhile isWs) else none
    else none
  | _ => none

/-- option_marker_regex.match(line) used as a boolean. -/
def isOptionMarker (s : Str) : Bool := (matchOptionMarker s).isSome

/-- option_marker_regex.sub(empty, line): because the pattern is anchored
at the start and the text is a single line, at most the leading marker is
removed. -/
def stripOptionMarker (s : Str) : Str :=
  match matchOptionMarker s with
  | some r => r
  | none => s

/-- only_marker_regex: a line consisting of nothing but a marker with
optional punctuation, e.g. a lone letter with a dot. -/
def isOnlyMarker (s : Str) : Bool :=
  let t := s.dropWhile isWs
  match t with
  | [] => false
  | c1 :: rest =>
    if isMarkerLetter c1 || isMarkerDigit c1 then
      match rest with
      | [] => true
      | c2 :: rest2 => if isMarkerPunct c2 then rest2.all isWs else rest.all isWs
    else if isBullet c1 then rest.all isWs
    else false

/-- A word character for the regex word boundary: [a-zA-Z0-9_]. -/
def isWordChar (c : Char) : Bool :=
  ('a' ≤ c && c ≤ 'z') || ('A' ≤ c && c ≤ 'Z') || c.isDigit || c == '_'

/-- The ordered alternatives of explicit_option_keywords, written out:
the pattern (options were|options?|optns?) expands to these strings. -/
def kwAlts : List Str :=
  ["options were".data, "options".data, "option".data, "optns".data, "optn".data]

/-- explicit_option_keywords.match(line) as a boolean: after optional
leading whitespace one alternative must occur, followed by a word
boundary; the trailing dot-star and optional punctuation of the pattern
always match. -/
def isExplicitOptionKeyword (s : Str) : Bool :=
  let t := s.dropWhile isWs
  kwAlts.any (fun alt =>
    alt.isPrefixOf (pyLower t) &&
    (match t.drop alt.length with
     | [] => true
     | c :: _ => !(isWordChar c)))

/-- explicit_option_keywords.sub(empty, line): the greedy dot-star of the
pattern extends to the end of the (single-line) input, so a successful
match removes the entire line. -/
def subExplicitKeyword (s : Str) : Str :=
  if isExplicitOptionKeyword s then [] else s

/-! ### datetime.strptime over the five formats of preprocess_transcript

The parsed value is stored as seconds on the proleptic Gregorian time
line (the ordering and the 20-minute arithmetic of the grouping stage
agree with Python datetime comparison and timedelta subtraction under
this encoding). -/

structure DT where
  year : Nat
  month : Nat
  day : Nat
  hour : Nat
  minute : Nat
  second : Nat
  deriving DecidableEq, Repr

def isLeapYear (y : Nat) : Bool :=
  (y % 4 == 0 && y % 100 != 0) || y % 400 == 0

def daysInMonth (y m : Nat) : Nat :=
  if m = 2 then (if isLeapYear y then 29 else 28)
  else if m = 4 ∨ m = 6 ∨ m = 9 ∨ m = 11 then 30
  else 31

def daysBeforeMonth (y m : Nat) : Nat :=
  (List.range (m - 1)).foldl (fun a i => a + daysInMonth y (i + 1)) 0

/-- Python date.toordinal (day 1 is January 1 of year 1). -/
def toOrdinal (y m d : Nat) : Nat :=
  (y - 1) * 365 + (y - 1) / 4 - (y - 1) / 100 + (y - 1) / 400 +
    daysBeforeMonth y m + d

def dtToSec (t : DT) : Int :=
  ((toOrdinal t.year t.month t.day) * 86400 +
    t.hour * 3600 + t.minute * 60 + t.second : Nat)

/-- Directives of the strptime formats used by the source. -/
inductive Dir where
  | dd      -- percent-d: day 1-31, one or two digits
  | mon     -- percent-m: month 1-12, one or two digits
  | y2      -- percent-y: exactly two digits, 69..99 maps to 19xx else 20xx
  | y4      -- percent-Y: exactly four digits
  | h24     -- percent-H: hour 0-23, one or two digits
  | h12     -- percent-I: hour 1-12, one or two digits
  | minute  -- percent-M: 0-59, one or two digits
  | second  -- percent-S: 0-59, one or two digits
  | ampm    -- percent-p: AM or PM, case-insensitive
  | lit (c : Char)  -- a literal character of the format
  | wsp     -- whitespace in the format matches a nonempty whitespace run
  deriving DecidableEq

/-- Partial parse state while running one format. -/
structure TEnv where
  year : Nat := 1900
  month : Nat := 1
  day : Nat := 1
  hour : Nat := 0
  minute : Nat := 0
  second : Nat := 0
  used12 : Bool := false
  pm : Option Bool := none
  deriving DecidableEq

def digitVal (c : Char) : Nat := c.toNat - 48

/-- One-or-two-digit numeric directive in CPython preference order: the
two-digit reading is tried first, then the one-digit reading, each gated
by the value set of the directive's regex. -/
def pNum12 (ok2 ok1 : Nat → Bool) (s : Str) : List (Nat × Str) :=
  (match s with
   | a :: b :: r =>
     if a.isDigit && b.isDigit && ok2 (digitVal a * 10 + digitVal b) then
       [(digitVal a * 10 + digitVal b, r)]
     else []
   | _ => []) ++
  (match s with
   | a :: r => if a.isDigit && ok1 (digitVal a) then [(digitVal a, r)] else []
   | _ => [])

def pFixedDigits : Nat → Str → Option (Nat × Str)
  | 0, s => some (0, s)
  | n + 1, c :: r =>
    if c.isDigit then
      (pFixedDigits n r).map (fun p => (digitVal c * 10 ^ n + p.1, p.2))
    else none
  | _ + 1, [] => none

def runDir : Dir → TEnv → Str → List (TEnv × Str)
  | .dd, e, s =>
    (pNum12 (fun v => 1 ≤ v && v ≤ 31) (fun v => 1 ≤ v) s).map
      (fun p => ({ e with day := p.1 }, p.2))
  | .mon, e, s =>
    (pNum12 (fun v => 1 ≤ v && v ≤ 12) (fun v => 1 ≤ v) s).map
      (fun p => ({ e with month := p.1 }, p.2))
  | .y2, e, s =>
    match pFixedDigits 2 s with
    | some (v, r) => [({ e with year := if v ≤ 68 then 2000 + v else 1900 + v }, r)]
    | none => []
  | .y4, e, s =>
    match pFixedDigits 4 s with
    | some (v, r) => [({ e with year := v }, r)]
    | none => []
  | .h24, e, s =>
    (pNum12 (fun v => v ≤ 23) (fun _ => true) s).map
      (fun p => ({ e with hour := p.1 }, p.2))
  | .h12, e, s =>
    (pNum12 (fun v => 1 ≤ v && v ≤ 12) (fun v => 1 ≤ v) s).map
      (fun p => ({ e with hour := p.1, used12 := true }, p.2))
  | .minute, e, s =>
    (pNum12 (fun v => v ≤ 59) (fun _ => true) s).map
      (fun p => ({ e with minute := p.1 }, p.2))
  | .second, e, s =>
    (pNum12 (fun v => v ≤ 59) (fun _ => true) s).map
      (fun p => ({ e with second := p.1 }, p.2))
  | .ampm, e, s =>
    (match s with
     | a :: m :: r =>
       if asciiLower m == 'm' then
         if asciiLower a == 'a' then [({ e with pm := some false }, r)]
         else if asciiLower a == 'p' then [({ e with pm := some true }, r)]
         else []
       else []
     | _ => [])
  | .lit c, e, s =>
    (match s with
     | c' :: r => if c' == c then [(e, r)] else []
     | [] => [])
  | .wsp, e, s =>
    let t := s.dropWhile isWs
    if t.length < s.length then [(e, t)] else []

def runDirs : List Dir → TEnv → Str → List (TEnv × Str)
  | [], e, s => [(e, s)]
  | d :: ds, e, s => (runDir d e s).flatMap (fun p => runDirs ds p.1 p.2)

/-- Resolve the 12-hour clock as CPython strptime does. -/
def resolveHour (e : TEnv) : Nat :=
  if e.used12 then
    match e.pm with
    | some true => if e.hour = 12 then 12 else e.hour + 12
    | some false => if e.hour = 12 then 0 else e.hour
    | none => e.hour
  else e.hour

/-- Run one format against the complete string and validate the calendar
date as the datetime constructor does. -/
def strptimeFmt (ds : List Dir) (s : Str) : Option DT :=
  match (runDirs ds {} s).find? (fun p => p.2.isEmpty) with
  | some (e, _) =>
    if 1 ≤ e.year ∧ e.year ≤ 9999 ∧ e.day ≤ daysInMonth e.year e.month then
      some { year := e.year, month := e.month, day := e.day,
             hour := resolveHour e, minute := e.minute, second := e.second }
    else none
  | none => none

/-- The formats_to_try list of preprocess_transcript, in order. -/
def formats_to_try : List (List Dir) :=
  [ [.dd, .lit '/', .mon, .lit '/', .y2, .lit ',', .wsp, .h24, .lit ':', .minute],
    [.dd, .lit '/', .mon, .lit '/', .y4, .lit ',', .wsp, .h24, .lit ':', .minute],
    [.mon, .lit '/', .dd, .lit '/', .y2, .lit ',', .wsp, .h12, .lit ':', .minute, .wsp, .ampm],
    [.dd, .lit '/', .mon, .lit '/', .y4, .lit ',', .wsp, .h24, .lit ':', .minute, .lit ':', .second],
    [.mon, .lit '/', .dd, .lit '/', .y4, .lit ',', .wsp, .h24, .lit ':', .minute, .lit ':', .second] ]

/-- The try-each-format loop of preprocess_transcript: first success wins. -/
def parseTimestamp (s : Str) : Option DT :=
  formats_to_try.findSome? (fun f => strptimeFmt f s)

/-! ### line_regex of preprocess_transcript

The pattern is
optional-group(bracket? timestamp bracket? dash) optional-group(user
ending in colon-space, lazy) then one-or-more characters of text.  The
matcher below enumerates the backtracking alternatives in the order the
regex engine tries them; each parser maps an input to the list of
possible rests in preference order. -/

def pDigitStep (s : Str) : List Str :=
  match s with
  | c :: r => if c.isDigit then [r] else []
  | [] => []

def pDigitsN : Nat → Str → List Str
  | 0, s => [s]
  | n + 1, s => (pDigitStep s).flatMap (pDigitsN n)

/-- Backslash-d repeated one or two times, greedy. -/
def pD12 (s : Str) : List Str := pDigitsN 2 s ++ pDigitsN 1 s

/-- Backslash-d repeated two to four times, greedy. -/
def pD24 (s : Str) : List Str := pDigitsN 4 s ++ pDigitsN 3 s ++ pDigitsN 2 s

def pLitChar (c : Char) (s : Str) : List Str :=
  match s with
  | d :: r => if d == c then [r] else []
  | [] => []

/-- An optional literal character, greedy (with the character first). -/
def pOptLit (c : Char) (s : Str) : List Str := pLitChar c s ++ [s]

/-- The optional seconds group: colon then two digits, greedy. -/
def pOptSeconds (s : Str) : List Str :=
  (pLitChar ':' s).flatMap (pDigitsN 2) ++ [s]

/-- The optional meridian group: space, A or P, M; greedy. -/
def pOptAmPm (s : Str) : List Str :=
  (match s with
   | ' ' :: c :: 'M' :: r => if c == 'A' || c == 'P' then [r] else []
   | _ => []) ++ [s]

/-- The timestamp capture group body:
digits12 slash digits12 slash digits24 comma? space digits12 colon
digits2 seconds? meridian?. -/
def pTimestampBody (s : Str) : List Str :=
  ((((((((((pD12 s).flatMap (pLitChar '/')).flatMap pD12).flatMap
    (pLitChar '/')).flatMap pD24).flatMap (pOptLit ',')).flatMap
    (pLitChar ' ')).flatMap pD12).flatMap (pLitChar ':')).flatMap
    (pDigitsN 2)).flatMap (fun r => (pOptSeconds r).flatMap pOptAmPm)

/-- After the timestamp body: an optional closing bracket (greedy) and
the literal space-dash-space separator. -/
def tsContinuations (s : Str) : List Str :=
  (pOptLit ']' s).flatMap (fun t =>
    match t with
    | ' ' :: '-' :: ' ' :: r => [r]
    | _ => [])

/-- Timestamp-group attempts on a source string: each result is the
captured timestamp text (the group excludes the brackets and the dash)
paired with the rest of the line. -/
def tsAttemptsFrom (src : Str) : List (Str × Str) :=
  (pTimestampBody src).flatMap (fun rst =>
    (tsContinuations rst).map (fun rem =>
      (src.take (src.length - rst.length), rem)))

/-- The lazy user group: every split of the input at a colon-space
occurrence, earliest first (the group captures up to and including the
colon-space). -/
def userSplitsAux (pre : Str) : Str → List (Str × Str)
  | [] => []
  | c :: rest =>
    if c = ':' then
      match rest with
      | ' ' :: rest2 =>
        ((' ' :: c :: pre).reverse, rest2) :: userSplitsAux (c :: pre) rest
      | _ => userSplitsAux (c :: pre) rest
    else userSplitsAux (c :: pre) rest

/-- The optional user group followed by the mandatory nonempty text
group: the regex takes the earliest colon-space split that leaves text,
otherwise the group is unmatched and the whole string is text. -/
def userText (s : Str) : Option Str × Str :=
  match (userSplitsAux [] s).find? (fun p => !p.2.isEmpty) with
  | some (u, t) => (some u, t)
  | none => (none, s)

/-- line_regex.match(line).groups() for a stripped line: the triple of
optional timestamp text, optional user text and message text.  The final
one-or-more-characters group makes the match fail exactly on the empty
string. -/
def matchLine (line : Str) : Option (Option Str × Option Str × Str) :=
  if line = [] then none
  else
    let attempts :=
      (match line with
       | '[' :: tl => tsAttemptsFrom tl
       | _ => []) ++ tsAttemptsFrom line
    match attempts.find? (fun p => !p.2.isEmpty) with
    | some (cap, rem) =>
      let (u, t) := userText rem
      some (some cap, u, t)
    | none =>
      let (u, t) := userText line
      some (none, u, t)

/-! ### preprocess_transcript (component_1_preprocessing.py) -/

/-- One message dictionary of the pipeline; is_potential_stem is the
annotation added by component 2.  The parsed timestamp is kept as
seconds on the time line (the source stores an ISO string and parses it
back unchanged in the grouping stage). -/
structure Message where
  id : Nat
  timestamp_str : Option Str
  timestamp : Option Int
  user : Str
  original_text : Str
  cleaned_text : Str
  is_potential_stem : Bool := false
  deriving DecidableEq, Repr

def lrmChar : Char := '\u200E'
def rlmChar : Char := '\u200F'

/-- The user cleanup of preprocess_transcript: remove colons, strip,
then remove the directionality marks. -/
def cleanUser (u : Str) : Str :=
  (pyStrip (u.filter (fun c => c ≠ ':'))).filter
    (fun c => c ≠ lrmChar ∧ c ≠ rlmChar)

/-- system_msg_patterns checked with re.search and IGNORECASE, used on
lines for which line_regex found no match at all. -/
def isSystemMessage (line : Str) : Bool :=
  let l := pyLower line
  endsWith "left".data l ||
  endsWith "added".data l ||
  containsSub "created group".data l ||
  containsSub "changed the subject".data l ||
  containsSub "changed this group's icon".data l ||
  containsSub (lrmChar :: "image omitted".data) l ||
  containsSub (lrmChar :: "video omitted".data) l ||
  containsSub (lrmChar :: "sticker omitted".data) l ||
  containsSub (lrmChar :: "document omitted".data) l ||
  containsSub (lrmChar :: "audio omitted".data) l

/-- Building a fresh message on a timestamped line. -/
def mkNewMessage (n : Nat) (tsStr : Str) (userPart : Option Str) (text : Str) :
    Message :=
  { id := n,
    timestamp_str := some tsStr,
    timestamp :=
      (parseTimestamp (pyStrip (tsStr.filter
        (fun c => c ≠ '[' ∧ c ≠ ']')))).map dtToSec,
    user := match userPart with
            | some u => cleanUser u
            | none => "Unknown".data,
    original_text := pyStrip text,
    cleaned_text := pyLower (pyStrip text) }

/-- The per-line loop of preprocess_transcript.  The branch for a failed
regex match (where the source filters system messages) is kept even
though the final text group of line_regex matches every nonempty line. -/
def preprocessLines : List Str → List Message → Option Message → Nat → List Message
  | [], msgs, cur, _ =>
    msgs ++ (match cur with | some m => [m] | none => [])
  | l :: rest, msgs, cur, n =>
    let line := pyStrip l
    if line = [] then preprocessLines rest msgs cur n
    else
      match matchLine line with
      | some (tsStr, u, text) =>
        match tsStr with
        | some ts =>
          let msgs' := msgs ++ (match cur with | some m => [m] | none => [])
          preprocessLines rest msgs' (some (mkNewMessage (n + 1) ts u text)) (n + 1)
        | none =>
          -- the text group is nonempty whenever the regex matches
          match cur with
          | some m =>
            preprocessLines rest msgs
              (some { m with
                original_text := m.original_text ++ '\n' :: text,
                cleaned_text := m.cleaned_text ++ '\n' :: pyLower text }) n
          | none =>
            preprocessLines rest msgs
              (some { id := n + 1, timestamp_str := none, timestamp := none,
                      user := "Unknown".data,
                      original_text := pyStrip text,
                      cleaned_text := pyLower (pyStrip text) }) (n + 1)
      | none =>
        match cur with
        | some m =>
          if isSystemMessage line then preprocessLines rest msgs cur n
          else
            preprocessLines rest msgs
              (some { m with
                original_text := m.original_text ++ '\n' :: line,
                cleaned_text := m.cleaned_text ++ '\n' :: pyLower line }) n
        | none => preprocessLines rest msgs cur n

/-- preprocess_transcript: empty input yields the empty message list. -/
def preprocess_transcript (t : Str) : List Message :=
  if t = [] then [] else preprocessLines (pySplitlines t) [] none 0

/-! ### identify_potential_stems (component_2_stem_identification.py) -/

def stem_keywords : List Str :=
  [ "who".data, "what".data, "when".data, "where".data, "why".data, "how".data,
    "which of the following".data, "choose the".data, "select the".data,
    "next best step".data, "next best line".data, "approach".data,
    "management".data, "treatment".data, "indication".data,
    "contraindication".data, "c/i".data,
    "risk factor".data, "cause".data, "causes".data, "except".data,
    "not a".data, "incorrect".data, "correct statement".data,
    "definition".data, "diagnosis".data, "diagnose".data, "differentiate".data,
    "complication".data, "complicating".data, "predictor".data, "based on".data,
    "investigation of choice".data, "most likely".data, "picture".data,
    "sign".data,
    "technique".data, "trial".data, "referencing".data, "parameter".data,
    "value".data,
    "count".data, "grading".data, "placement".data, "entry".data,
    "criteria".data ]

/-- The anchored pattern whitespace-star q close-paren of heuristic 1
(IGNORECASE; the trailing whitespace-star always matches). -/
def matchesQParen (s : Str) : Bool :=
  match s.dropWhile isWs with
  | c1 :: c2 :: _ => asciiLower c1 == 'q' && c2 == ')'
  | _ => false

/-- The per-message decision chain of identify_potential_stems, applied
to cleaned_text. -/
def classifyStem (m : Message) : Bool :=
  let text := m.cleaned_text
  if text = [] then false
  else if matchesQParen text then true
  else if text.getLast? = some '?' then true
  else
    let found := stem_keywords.any (fun k => containsSub k text)
    let wc := (pySplitWs text).length
    if found ∧ wc > 3 then true
    else if found ∧ wc ≤ 3 ∧
        (endsWith [':'] text || containsSub [':'] text) then true
    else if containsSub [':'] text ∧
        (pyStrip ((splitOnChar ':' text).getLastD [])).length < 15 then true
    else false

/-- identify_potential_stems annotates every message (the source mutates
the dictionaries in place and returns the same list). -/
def identify_potential_stems (msgs : List Message) : List Message :=
  msgs.map (fun m => { m with is_potential_stem := classifyStem m })

/-! ### extract_options_from_text (component_4_refined_grouping.py) -/

/-- The line loop of extract_options_from_text, carrying the collected
options and the in_option_section flag. -/
def extractLoop : List Str → List Str → Bool → List Str
  | [], opts, _ => opts
  | l :: rest, opts, inOpt =>
    let line := pyStrip l
    if line = [] ∨ isOnlyMarker line then extractLoop rest opts inOpt
    else if isExplicitOptionKeyword line then
      -- the substitution removes the whole matched line, so the text
      -- after the keyword phrase is always empty and never appended
      let kwTail := pyStrip (subExplicitKeyword line)
      extractLoop rest (if kwTail ≠ [] then opts ++ [kwTail] else opts) true
    else if inOpt ∨ isOptionMarker line then
      extractLoop rest (opts ++ [line]) inOpt
    else if opts ≠ [] ∧
        (isOptionMarker (opts.getLastD []) ∨ (opts.getLastD []).length < 80) ∧
        line.length < 80 then
      extractLoop rest (opts ++ [line]) inOpt
    else if inOpt ∧ line.length > 100 ∧ ¬ isOptionMarker line then
      extractLoop rest opts false
    else extractLoop rest opts inOpt

/-- extract_options_from_text, including the short-line fallback
heuristic.  The Python comparison count at-least 0.6 times n is encoded
as 5 times count at-least 3 times n, which agrees with the float
comparison for every n up to the line bound of 6. -/
def extract_options_from_text (text : Str) : List Str :=
  let lines := pySplitlines text
  let opts := extractLoop lines [] false
  if opts = [] ∧ lines.length ≤ 6 ∧ text.length < 200 then
    let ne := (lines.map pyStrip).filter (fun l => l ≠ [])
    let shortCount := (ne.filter (fun l => l.length < 80)).length
    if ne.length > 0 ∧ 5 * shortCount ≥ 3 * ne.length then opts ++ ne else opts
  else opts

/-! ### refine_grouping_with_similarity (component_4_refined_grouping.py)

The external fuzzy matcher fuzz.token_set_ratio of the thefuzz library
is not part of this repository; the grouping is therefore parametrised
by a score function from the options preview and the stem text to a
similarity value.  The temporal decay factor of the source is the
constant 1.0, so the final score equals the raw score. -/

structure OptionBlock where
  source_message_id : Nat
  option_texts : List Str
  method : Str
  deriving DecidableEq, Repr

structure QData where
  stem_message : Message
  stem_text_only : Str
  options : List OptionBlock
  deriving DecidableEq, Repr

/-- potential_questions: a Python dict in insertion order. -/
abbrev PQ := List (Nat × QData)

/-- Dict assignment: replace in place, else append. -/
def insertEntry : PQ → Nat → QData → PQ
  | [], k, v => [(k, v)]
  | e :: t, k, v => if e.1 = k then (k, v) :: t else e :: insertEntry t k v

/-- Appending an option block to the entry of a key (dict keys are
unique, so appending to the first occurrence is dict mutation). -/
def appendBlock : PQ → Nat → OptionBlock → PQ
  | [], _, _ => []
  | e :: t, k, b =>
    if e.1 = k then (e.1, { e.2 with options := e.2.options ++ [b] }) :: t
    else e :: appendBlock t k b

/-- Dict lookup by key. -/
def lookupPQ : PQ → Nat → Option QData
  | [], _ => none
  | e :: t, k => if e.1 = k then some e.2 else lookupPQ t k

/-- Python set.add on the associated-message-id set (only membership is
ever observed). -/
def addId (s : List Nat) (i : Nat) : List Nat :=
  if i ∈ s then s else i :: s

/-- The newline join of Python. -/
def joinNL : List Str → Str
  | [] => []
  | [x] => x
  | x :: xs => x ++ '\n' :: joinNL xs

/-- The space join of Python. -/
def joinSpace : List Str → Str
  | [] => []
  | [x] => x
  | x :: xs => x ++ ' ' :: joinSpace xs

/-- Pass 1 inner loop: partition the lines of a stem message into stem
lines and internal option lines; the flag records that the running
section has switched to options. -/
def partitionLoop : List Str → List Str → List Str → Bool → List Str × List Str
  | [], stemLines, opts, _ => (stemLines, opts)
  | l :: rest, stemLines, opts, inOption =>
    let line := pyStrip l
    if line = [] ∨ isOnlyMarker line then partitionLoop rest stemLines opts inOption
    else if isOptionMarker line then partitionLoop rest stemLines (opts ++ [line]) true
    else if ¬ inOption ∧ stemLines ≠ [] ∧ line.length < 80 then
      if (stemLines.getLastD []).length > 50 then
        partitionLoop rest stemLines (opts ++ [line]) true
      else partitionLoop rest (stemLines ++ [line]) opts inOption
    else if inOption then partitionLoop rest stemLines (opts ++ [line]) inOption
    else partitionLoop rest (stemLines ++ [line]) opts inOption

/-- The pass 1 partition of one stem message. -/
def stemPartition (m : Message) : List Str × List Str :=
  partitionLoop (pySplitlines m.original_text) [] [] false

/-- stem_text_only with its fallback to the whole stripped text when
every line was classified as an option. -/
def stemTextOnlyOf (m : Message) : Str :=
  let st := pyStrip (joinNL (stemPartition m).1)
  if st ≠ [] then st else pyStrip m.original_text

/-- Pass 1 of refine_grouping_with_similarity. -/
def pass1Loop : List Message → PQ → List Nat → PQ × List Nat
  | [], pq, assoc => (pq, assoc)
  | m :: rest, pq, assoc =>
    if m.is_potential_stem then
      let internal := (stemPartition m).2
      let entry : QData :=
        { stem_message := m,
          stem_text_only := stemTextOnlyOf m,
          options :=
            if internal ≠ [] then
              [{ source_message_id := m.id, option_texts := internal,
                 method := "internal".data }]
            else [] }
      let assoc' := if internal ≠ [] then addId assoc m.id else assoc
      pass1Loop rest (insertEntry pq m.id entry) assoc'
    else pass1Loop rest pq assoc

/-- MESSAGE_SEARCH_WINDOW and TIME_SEARCH_WINDOW_MINUTES and
SIMILARITY_THRESHOLD of the source. -/
def MESSAGE_SEARCH_WINDOW : Int := 15
def TIME_SEARCH_WINDOW_MINUTES : Int := 20
def SIMILARITY_THRESHOLD : Nat := 65

/-- The candidate construction of pass 2: entries of the dict whose key
lies in the message window, further filtered by the 20-minute rule when
the current message has a timestamp. -/
def candEntries (pq : PQ) (msgId : Nat) (ts : Option Int) : PQ :=
  let minMessageId : Int := max 0 ((msgId : Int) - MESSAGE_SEARCH_WINDOW - 1)
  let base := pq.filter (fun e =>
    decide ((e.1 : Int) < (msgId : Int) ∧ (e.1 : Int) ≥ minMessageId))
  match ts with
  | none => base
  | some t =>
    let minTimestamp := t - TIME_SEARCH_WINDOW_MINUTES * 60
    base.filter (fun e =>
      match e.2.stem_message.timestamp with
      | some ts' => decide (ts' ≥ minTimestamp)
      | none => false)

/-- The best-candidate fold of pass 2: strict improvement only. -/
def selectBestAux (score : Str → Str → Nat) (preview : Str) :
    PQ → Option Nat × Nat → Option Nat × Nat
  | [], acc => acc
  | e :: rest, (best, highest) =>
    let sc := score preview e.2.stem_text_only
    if sc > highest then selectBestAux score preview rest (some e.1, sc)
    else selectBestAux score preview rest (best, highest)

/-- The similarity association decision: the loop followed by the
threshold test.  A best id of 0 is falsy in Python and is rejected by
the test exactly like None. -/
def simSelect (score : Str → Str → Nat) (preview : Str) (cands : PQ) :
    Option (Nat × Nat) :=
  if cands ≠ [] then
    match selectBestAux score preview cands (none, 0) with
    | (some b, highest) =>
      if b ≠ 0 ∧ highest ≥ SIMILARITY_THRESHOLD then some (b, highest) else none
    | (none, _) => none
  else none

/-- The method tag written for a similarity association. -/
def simMethod (h : Nat) : Str :=
  "similarity (".data ++ Nat.toDigits 10 h ++ ")".data

/-- The options preview: first three option lines joined by spaces,
truncated to 200 characters. -/
def optionsPreview (opts : List Str) : Str :=
  (joinSpace (opts.take 3)).take 200

/-- The adjacency test of pass 2: the id of the list predecessor when
that predecessor is a known stem. -/
def adjacentStemId (pq : PQ) (prev : Option Message) : Option Nat :=
  match prev with
  | some p => if (lookupPQ pq p.id).isSome then some p.id else none
  | none => none

/-- One pass 2 step for one message, given the previous message of the
list (if any). -/
def pass2Step (score : Str → Str → Nat) (prev : Option Message) (m : Message)
    (pq : PQ) (assoc : List Nat) : PQ × List Nat :=
  if m.is_potential_stem ∨ m.id ∈ assoc then (pq, assoc)
  else
    let opts := extract_options_from_text m.original_text
    if opts ≠ [] then
      match adjacentStemId pq prev with
      | some pid =>
        (appendBlock pq pid
          { source_message_id := m.id, option_texts := opts,
            method := "adjacent".data },
         addId assoc m.id)
      | none =>
        match simSelect score (optionsPreview opts)
            (candEntries pq m.id m.timestamp) with
        | some (b, h) =>
          (appendBlock pq b
            { source_message_id := m.id, option_texts := opts,
              method := simMethod h },
           addId assoc m.id)
        | none => (pq, assoc)
    else (pq, assoc)

/-- Pass 2 of refine_grouping_with_similarity. -/
def pass2Loop (score : Str → Str → Nat) :
    Option Message → List Message → PQ × List Nat → PQ × List Nat
  | _, [], st => st
  | prev, m :: rest, st =>
    pass2Loop score (some m) rest (pass2Step score prev m st.1 st.2)

/-- The per-option cleaning of pass 3: strip the leading marker, strip
whitespace, drop options that become empty. -/
def cleanOptions (l : List Str) : List Str :=
  (l.map (fun o => pyStrip (stripOptionMarker o))).filter (fun c => c ≠ [])

/-- The case-insensitive first-occurrence deduplication of pass 3. -/
def dedupCIAux : List Str → List Str → List Str
  | _, [] => []
  | seen, o :: rest =>
    if pyLower o ∈ seen then dedupCIAux seen rest
    else o :: dedupCIAux (pyLower o :: seen) rest

structure Collated where
  stem_id : Nat
  stem_text : Str
  options : List Str
  deriving DecidableEq, Repr

/-- Insertion sort for the ascending key order of pass 3. -/
def insertSorted (n : Nat) : List Nat → List Nat
  | [] => [n]
  | m :: t => if n ≤ m then n :: m :: t else m :: insertSorted n t

def sortNat : List Nat → List Nat
  | [] => []
  | x :: t => insertSorted x (sortNat t)

/-- Pass 3 consolidation loop over the sorted stem keys.  The none
branch of the lookup is unreachable because the keys are drawn from the
dict itself; the processed set mirrors processed_stem_ids. -/
def pass3Loop (pq : PQ) : List Nat → List Nat → List Collated
  | [], _ => []
  | sid :: rest, processed =>
    if sid ∈ processed then pass3Loop pq rest processed
    else
      match lookupPQ pq sid with
      | none => pass3Loop pq rest processed
      | some q =>
        let allTexts := q.options.flatMap (fun b => b.option_texts)
        let uniq := dedupCIAux [] (cleanOptions allTexts)
        if q.stem_text_only ≠ [] ∧ uniq ≠ [] then
          { stem_id := sid, stem_text := q.stem_text_only, options := uniq } ::
            pass3Loop pq rest (sid :: processed)
        else pass3Loop pq rest processed

def pass3 (pq : PQ) : List Collated :=
  pass3Loop pq (sortNat (pq.map (fun e => e.1))) []

/-- refine_grouping_with_similarity, parametrised by the external score
function. -/
def refine_grouping_with_similarity (score : Str → Str → Nat)
    (msgs : List Message) : List Collated :=
  if msgs = [] then []
  else pass3 (pass2Loop score none msgs (pass1Loop msgs [] [])).1

/-- The production heuristic pipeline: reader, stem classifier, refined
grouping. -/
def pipelineHeuristic (score : Str → Str → Nat) (t : Str) : List Collated :=
  refine_grouping_with_similarity score
    (identify_potential_stems (preprocess_transcript t))

/-! ### The result combination step of processing.py -/

/-- One question object returned by the chunked extraction of
collate_questions_from_transcript. -/
structure GenQ where
  stem_text : Str
  options : List Str
  deriving DecidableEq, Repr

/-- The normalisation used for stem deduplication: lower then strip. -/
def normStem (q : GenQ) : Str := pyStrip (pyLower q.stem_text)

/-- The final combine-and-deduplicate loop of
collate_questions_from_transcript (seen_stems holds normalised texts). -/
def dedupQuestionsAux : List Str → List GenQ → List GenQ
  | _, [] => []
  | seen, q :: rest =>
    if normStem q ∈ seen then dedupQuestionsAux seen rest
    else q :: dedupQuestionsAux (normStem q :: seen) rest

def combineResults (qs : List GenQ) : List GenQ :=
  dedupQuestionsAux [] qs

/-! ### Concrete inputs used by the claim theorems and witnesses -/

/-- A score function that is constant; used where the run under scrutiny
must not depend on the external fuzzy matcher. -/
def scoreZero : Str → Str → Nat := fun _ _ => 0

def scoreConst65 : Str → Str → Nat := fun _ _ => 65

def scoreConst100 : Str → Str → Nat := fun _ _ => 100

/-- A long chatty line: not a stem, and too long for the short-line
fallback, so it carries no options. -/
def fillerText : Str :=
  "the weather has been really nice lately and everyone enjoyed the long afternoon outside".data

def mkPlainMsg (i : Nat) (ts : Option Int) (txt : Str) (stem : Bool) : Message :=
  { id := i, timestamp_str := none, timestamp := ts, user := "u".data,
    original_text := txt, cleaned_text := pyLower txt, is_potential_stem := stem }

/-- Input for the window counterexample: a stem sixteen positions before
an orphan option block. -/
def winStem : Message := mkPlainMsg 4 none "alpha beta?".data true
def winFiller : Message := mkPlainMsg 19 none fillerText false
def winOrphan : Message := mkPlainMsg 20 none "A. alpha\nB. beta".data false
def winMsgs : List Message := [winStem, winFiller, winOrphan]

/-- Input for the timestamp-filter counterexample: a stem without a
timestamp near an orphan block that has one. -/
def tsStem : Message := mkPlainMsg 5 none "alpha beta gamma?".data true
def tsFiller : Message := mkPlainMsg 11 none fillerText false
def tsOrphan : Message := mkPlainMsg 12 (some 1000000) "A. alpha\nB. beta".data false
def tsMsgs : List Message := [tsStem, tsFiller, tsOrphan]

/-- Input for the system-notice claim: a timestamped question followed by
a bare line that matches the member-left pattern. -/
def sysNoticeInput : Str := "01/01/24, 10:00 - Alice: What is X?\nAlice left".data

/-- The same question followed by the group-leave wording used in the
specification's scenario. -/
def sysNoticeInputB : Str := "01/01/24, 10:00 - Alice: What is X?\nleft the group".data

/-- Input for the explicit-option-section claim: a keyword line, a short
option, a line longer than one hundred characters, another short line. -/
def longOptLine : Str := List.replicate 101 'x'
def keywordSectionInput : Str :=
  "options:\nParis\n".data ++ longOptLine ++ "\nLyon".data

/-- Scenario A input of the specification. -/
def scenarioAInput : Str :=
  "01/01/24, 10:00 - Alice: What is the capital of France?\n01/01/24, 10:01 - Bob: A. Paris\nB. Lyon".data

def scenarioAMsgs : List Message :=
  identify_potential_stems (preprocess_transcript scenarioAInput)

/-- The Scenario A output record. -/
def scenarioAQ : Collated :=
  { stem_id := 1, stem_text := "What is the capital of France?".data,
    options := ["Paris".data, "Lyon".data] }

/-- Input for the stem-deduplication counterexample: the same question
text appears twice, each time followed by an adjacent option message. -/
def dupStem1 : Message := mkPlainMsg 1 none "What is the capital of France?".data true
def dupOpts1 : Message := mkPlainMsg 2 none "A. Paris".data false
def dupStem2 : Message := mkPlainMsg 3 none "What is the capital of France?".data true
def dupOpts2 : Message := mkPlainMsg 4 none "A. Rome".data false
def dupMsgs : List Message := [dupStem1, dupOpts1, dupStem2, dupOpts2]

/-- A stem message whose original text is whitespace only. -/
def blankStem : Message := mkPlainMsg 7 none [' '] true

/-- A stem message consisting of a single marked option line. -/
def onlyOptionStem : Message := mkPlainMsg 9 none "A. x".data true

/-- The running maximum of the scores of a candidate list, as computed
by the strict-improvement fold of pass 2. -/
def foldMaxScore (score : Str → Str → Nat) (preview : Str) (cands : PQ)
    (h : Nat) : Nat :=
  cands.foldl (fun a e => max a (score preview e.2.stem_text_only)) h

/-- All source_message_id values attached anywhere in the dict. -/
def allSources (pq : PQ) : List Nat :=
  pq.flatMap (fun e => e.2.options.map (fun b => b.source_message_id))

/-- The state shape established by pass 1: keys are unique and every
entry carries at most its own internal block. -/
def Pass1Inv (pq : PQ) (assoc : List Nat) : Prop :=
  (pq.map (fun e => e.1)).Nodup ∧
  ∀ e ∈ pq, e.2.options.map (fun b => b.source_message_id) = [] ∨
    (e.2.options.map (fun b => b.source_message_id) = [e.1] ∧ e.1 ∈ assoc)

/-- The invariant maintained by pass 2: attached sources are pairwise
distinct and recorded in the associated-id set. -/
def SourcesInv (pq : PQ) (assoc : List Nat) : Prop :=
  (allSources pq).Nodup ∧ ∀ s ∈ allSources pq, s ∈ assoc

/-- A dict entry with a timestamped stem, for the timestamp-filter
witness. -/
def tsWitnessEntry : Nat × QData :=
  (5, { stem_message := mkPlainMsg 5 (some 900) "q?".data true,
        stem_text_only := "q?".data, options := [] })

/-- Candidate entries sharing one stem text, for the tie-break witness. -/
def tieEntryA : Nat × QData :=
  (1, { stem_message := mkPlainMsg 1 none "t".data true,
        stem_text_only := "t".data, options := [] })

def tieEntryB : Nat × QData :=
  (2, { stem_message := mkPlainMsg 2 none "t".data true,
        stem_text_only := "t".data, options := [] })

/-- Duplicate-stem input for the combination-step theorem. -/
def genDup1 : GenQ := { stem_text := "A?".data, options := [] }
def genDup2 : GenQ := { stem_text := " a?".data, options := ["x".data] }

/-! ### Claim theorems -/

/-- Claim C1, counterexample: the candidate window of the similarity
search reaches sixteen positions back, not fifteen.  The stem with
sequence id 4 is earlier than 20 minus 15 yet it is the (only) candidate
for the orphan block at sequence id 20, and the run attaches the orphan
to it. -/
theorem c1_counterexample :
    (candEntries (pass1Loop winMsgs [] []).1 20 none).map (fun e => e.1) = [4] ∧
    (4 : Int) < (20 : Int) - MESSAGE_SEARCH_WINDOW ∧
    refine_grouping_with_similarity scoreConst65 winMsgs =
      [{ stem_id := 4, stem_text := "alpha beta?".data,
         options := ["alpha".data, "beta".data] }] := by
  refine ⟨by decide, by decide, by decide⟩

/-- Claim C3 (code_bug evidence): the line regex of the transcript
reader matches every nonempty line, so the system-notice filter is
unreachable; a bare member-left line following a stem is appended to the
message text even though it matches the system-notice patterns.
Additionally, the wording used by the claim, left the group, matches
none of the source's patterns (the member-left pattern is anchored to
the end of the line), so it would be appended even if the filter were
reachable. -/
theorem c3_system_line_appended :
    (preprocess_transcript sysNoticeInput).map (fun m => m.original_text) =
      ["What is X?\nAlice left".data] ∧
    isSystemMessage (pyStrip "Alice left".data) = true ∧
    matchLine (pyStrip "Alice left".data) =
      some (none, none, "Alice left".data) ∧
    (preprocess_transcript sysNoticeInputB).map (fun m => m.original_text) =
      ["What is X?\nleft the group".data] ∧
    isSystemMessage (pyStrip "left the group".data) = false := by
  refine ⟨by decide, by decide, by decide, by decide, by decide⟩

/-- Claim C2, counterexample: when the orphan option-block message has a
timestamp, a candidate stem lacking one IS removed by the timestamp
filter: with the filter active the candidate list is empty although the
same stem is a candidate when the message has no timestamp, and the run
discards the orphan even under a perfect score. -/
theorem c2_counterexample :
    (candEntries (pass1Loop tsMsgs [] []).1 12 (some 1000000)).map (fun e => e.1) = [] ∧
    (candEntries (pass1Loop tsMsgs [] []).1 12 none).map (fun e => e.1) = [5] ∧
    tsStem.timestamp = none ∧
    refine_grouping_with_similarity scoreConst100 tsMsgs = [] := by
  refine ⟨by decide, by decide, by decide, by decide⟩

/-- Claim C4 (code_bug evidence): once an explicit option-section
keyword has been seen, the in-section branch captures every line first,
so a line longer than one hundred characters is itself emitted as an
option and the section does not end (the following short line is also
emitted). -/
theorem c4_long_line_kept :
    extract_options_from_text keywordSectionInput =
      ["Paris".data, longOptLine, "Lyon".data] ∧
    longOptLine.length > 100 ∧
    isOptionMarker longOptLine = false := by
  refine ⟨by decide, by decide, by decide⟩

/-- Claim C5, counterexample: the heuristic grouping path emits both of
two stems whose texts normalise to the same string, each with its own
options; no text-based stem deduplication happens there. -/
theorem c5_counterexample :
    refine_grouping_with_similarity scoreZero dupMsgs =
      [{ stem_id := 1, stem_text := "What is the capital of France?".data,
         options := ["Paris".data] },
       { stem_id := 3, stem_text := "What is the capital of France?".data,
         options := ["Rome".data] }] ∧
    pyStrip (pyLower dupStem1.original_text) =
      pyStrip (pyLower dupStem2.original_text) := by
  refine ⟨by decide, by decide⟩

/-- Claim C7: on the Scenario A input the full heuristic pipeline
produces exactly one collated question, the stem with its two options in
order, and the option block is attached to it by the adjacency method;
the result does not depend on the external score function. -/
theorem c7_scenarioA (score : Str → Str → Nat) :
    pipelineHeuristic score scenarioAInput =
      [{ stem_id := 1, stem_text := "What is the capital of France?".data,
         options := ["Paris".data, "Lyon".data] }] ∧
    (lookupPQ (pass2Loop score none scenarioAMsgs (pass1Loop scenarioAMsgs [] [])).1 1).map
        (fun q => q.options.map (fun b => (b.source_message_id, b.method))) =
      some [(2, "adjacent".data)] := by
  exact ⟨rfl, rfl⟩

/-- Claim C7, witness: the Scenario A run at a concrete score function. -/
theorem c7_scenarioA_witness :
    pipelineHeuristic scoreZero scenarioAInput =
      [{ stem_id := 1, stem_text := "What is the capital of France?".data,
         options := ["Paris".data, "Lyon".data] }] :=
  (c7_scenarioA scoreZero).1

/-- Claim C10, counterexample: a stem message whose original text is a
single space is nonempty, yet after every (blank) line is skipped the
fallback strips the text and records an empty stem_text_only. -/
theorem c10_counterexample :
    stemTextOnlyOf blankStem = [] ∧
    blankStem.original_text ≠ [] ∧
    (pass1Loop [blankStem] [] []).1 =
      [(7, { stem_message := blankStem, stem_text_only := [], options := [] })] := by
  refine ⟨by decide, by decide, by decide⟩

/-- Claim C1, amended: with no timestamp filter in play, a stem id is a
similarity candidate for the message with id mid exactly when it is a
key of the dict and lies in the half-open window that reaches sixteen
positions back, that is sid is below mid and mid is at most sid plus 16. -/
theorem c1_window_amended (pq : PQ) (mid sid : Nat) :
    sid ∈ (candEntries pq mid none).map (fun e => e.1) ↔
      (sid ∈ pq.map (fun e => e.1) ∧ sid < mid ∧ mid ≤ sid + 16) := by
  simp only [candEntries, MESSAGE_SEARCH_WINDOW, List.mem_map, List.mem_filter,
    decide_eq_true_eq]
  constructor
  · rintro ⟨e, ⟨hm, h1, h2⟩, rfl⟩
    refine ⟨⟨e, hm, rfl⟩, ?_, ?_⟩ <;> omega
  · rintro ⟨⟨e, hm, rfl⟩, h1, h2⟩
    exact ⟨e, ⟨hm, by omega, by omega⟩, rfl⟩

/-- Claim C1 amended, witness: in the concrete window counterexample the
characterisation places stem 4 in the candidate set of message 20. -/
theorem c1_window_amended_witness :
    4 ∈ (candEntries (pass1Loop winMsgs [] []).1 20 none).map (fun e => e.1) :=
  (c1_window_amended (pass1Loop winMsgs [] []).1 20 4).mpr (by decide)

/-- Claim C2, amended: when the option-block message has a timestamp,
every surviving candidate stem carries a timestamp at least the current
timestamp minus twenty minutes; stems lacking a timestamp are excluded
by the filter. -/
theorem c2_filter_amended (pq : PQ) (mid : Nat) (t : Int) (e : Nat × QData)
    (he : e ∈ candEntries pq mid (some t)) :
    ∃ ts, e.2.stem_message.timestamp = some ts ∧
      t - TIME_SEARCH_WINDOW_MINUTES * 60 ≤ ts := by
  simp only [candEntries, List.mem_filter] at he
  obtain ⟨-, hf⟩ := he
  cases h : e.2.stem_message.timestamp with
  | none => rw [h] at hf; exact absurd hf (by simp)
  | some ts =>
    rw [h] at hf
    exact ⟨ts, rfl, by simpa [decide_eq_true_eq] using hf⟩

/-- Claim C2 amended, witness: a concrete candidate that survives the
filter indeed carries a sufficiently recent timestamp. -/
theorem c2_filter_amended_witness :
    ∃ ts, tsWitnessEntry.2.stem_message.timestamp = some ts ∧
      (1500 : Int) - TIME_SEARCH_WINDOW_MINUTES * 60 ≤ ts :=
  c2_filter_amended [tsWitnessEntry] 12 1500 tsWitnessEntry (by decide)

theorem foldMaxScore_ge_init (score : Str → Str → Nat) (preview : Str) :
    ∀ (cands : PQ) (h : Nat), h ≤ foldMaxScore score preview cands h := by
  intro cands
  induction cands with
  | nil => intro h; simp [foldMaxScore]
  | cons e rest ih =>
    intro h
    have := ih (max h (score preview e.2.stem_text_only))
    simp only [foldMaxScore, List.foldl_cons] at this ⊢
    omega

theorem foldMaxScore_attained (score : Str → Str → Nat) (preview : Str) :
    ∀ (cands : PQ) (h : Nat), foldMaxScore score preview cands h = h ∨
      ∃ e ∈ cands, score preview e.2.stem_text_only =
        foldMaxScore score preview cands h := by
  intro cands
  induction cands with
  | nil => intro h; left; simp [foldMaxScore]
  | cons e rest ih =>
    intro h
    have h1 := ih (max h (score preview e.2.stem_text_only))
    simp only [foldMaxScore, List.foldl_cons] at h1 ⊢
    rcases h1 with h1 | ⟨e', he', h1⟩
    · rcases max_choice h (score preview e.2.stem_text_only) with hm | hm
      · left; rw [h1, hm]
      · right; exact ⟨e, List.mem_cons_self e rest, by rw [h1, hm]⟩
    · right; exact ⟨e', List.mem_cons_of_mem e he', h1⟩

theorem selectBestAux_snd (score : Str → Str → Nat) (preview : Str) :
    ∀ (cands : PQ) (b : Option Nat) (h : Nat),
      (selectBestAux score preview cands (b, h)).2 =
        foldMaxScore score preview cands h := by
  intro cands
  induction cands with
  | nil => intro b h; simp [selectBestAux, foldMaxScore]
  | cons e rest ih =>
    intro b h
    simp only [selectBestAux, foldMaxScore, List.foldl_cons]
    by_cases hc : score preview e.2.stem_text_only > h
    · rw [if_pos hc, ih]
      have : max h (score preview e.2.stem_text_only) =
          score preview e.2.stem_text_only := by omega
      rw [foldMaxScore, this]
    · rw [if_neg hc, ih]
      have : max h (score preview e.2.stem_text_only) = h := by omega
      rw [foldMaxScore, this]

theorem foldMaxScore_cons (score : Str → Str → Nat) (preview : Str)
    (e : Nat × QData) (rest : PQ) (h : Nat) :
    foldMaxScore score preview (e :: rest) h =
      foldMaxScore score preview rest (max h (score preview e.2.stem_text_only)) :=
  rfl

theorem selectBestAux_fst (score : Str → Str → Nat) (preview : Str) :
    ∀ (cands : PQ) (b : Option Nat) (h : Nat),
      (selectBestAux score preview cands (b, h)).1 =
        if h < foldMaxScore score preview cands h then
          (cands.find? (fun e =>
            score preview e.2.stem_text_only ==
              foldMaxScore score preview cands h)).map (fun e => e.1)
        else b := by
  intro cands
  induction cands with
  | nil =>
    intro b h
    simp [selectBestAux, foldMaxScore]
  | cons e rest ih =>
    intro b h
    rw [foldMaxScore_cons, selectBestAux]
    by_cases hc : score preview e.2.stem_text_only > h
    · rw [if_pos hc, ih]
      have hmax : max h (score preview e.2.stem_text_only) =
          score preview e.2.stem_text_only := by omega
      rw [hmax]
      have hge := foldMaxScore_ge_init score preview rest
        (score preview e.2.stem_text_only)
      by_cases hlt : score preview e.2.stem_text_only <
          foldMaxScore score preview rest (score preview e.2.stem_text_only)
      · rw [if_pos hlt, if_pos (by omega)]
        rw [List.find?_cons_of_neg]
        simp only [beq_iff_eq]
        omega
      · have heq : foldMaxScore score preview rest
            (score preview e.2.stem_text_only) =
            score preview e.2.stem_text_only := by omega
        rw [if_neg hlt, if_pos (by omega), heq,
          List.find?_cons_of_pos _ (by simp)]
        rfl
    · rw [if_neg hc, ih]
      have hmax : max h (score preview e.2.stem_text_only) = h := by omega
      rw [hmax]
      by_cases hlt : h < foldMaxScore score preview rest h
      · rw [if_pos hlt, if_pos hlt, List.find?_cons_of_neg]
        simp only [beq_iff_eq]
        omega
      · rw [if_neg hlt, if_neg hlt]

/-- Claim C6: the similarity association selects the candidate with the
strictly highest score, ties resolved to the earliest candidate of the
(first-seen ordered) list because only strict improvement replaces the
running best; the selection is attached exactly when the best score
reaches the threshold 65 (so a best of 65 is accepted and one of 64 is
rejected), and it carries that score.  Candidate ids are positive in any
run over reader output, which rules out the falsy id 0. -/
theorem c6_selection_threshold (score : Str → Str → Nat) (preview : Str)
    (cands : PQ) (hpos : ∀ e ∈ cands, 1 ≤ e.1) :
    simSelect score preview cands =
      if SIMILARITY_THRESHOLD ≤ foldMaxScore score preview cands 0 then
        (cands.find? (fun e =>
          score preview e.2.stem_text_only ==
            foldMaxScore score preview cands 0)).map
          (fun e => (e.1, foldMaxScore score preview cands 0))
      else none := by
  by_cases hc : cands = []
  · subst hc
    simp [simSelect, foldMaxScore, SIMILARITY_THRESHOLD]
  · have hsnd := selectBestAux_snd score preview cands none 0
    have hfst := selectBestAux_fst score preview cands none 0
    rcases hsel : selectBestAux score preview cands (none, 0) with ⟨b, hs⟩
    rw [hsel] at hsnd hfst
    simp only at hsnd hfst
    subst hsnd
    simp only [simSelect, hsel, if_pos hc, SIMILARITY_THRESHOLD] at *
    cases b with
    | none =>
      by_cases hth : (65 : Nat) ≤ foldMaxScore score preview cands 0
      · exfalso
        have hMpos : 0 < foldMaxScore score preview cands 0 := by omega
        rw [if_pos hMpos] at hfst
        rcases foldMaxScore_attained score preview cands 0 with h0 | ⟨e0, he0, hsc⟩
        · omega
        · have hsome : (cands.find? (fun e =>
              score preview e.2.stem_text_only ==
                foldMaxScore score preview cands 0)).isSome :=
            List.find?_isSome.mpr ⟨e0, he0, by simp [hsc]⟩
          rcases Option.isSome_iff_exists.mp hsome with ⟨e1, hfind⟩
          rw [hfind] at hfst
          exact Option.noConfusion hfst
      · rw [if_neg hth]
    | some b' =>
      have hMpos : 0 < foldMaxScore score preview cands 0 := by
        by_contra hnot
        rw [if_neg hnot] at hfst
        exact Option.noConfusion hfst
      rw [if_pos hMpos] at hfst
      rcases hfind : cands.find? (fun e =>
          score preview e.2.stem_text_only ==
            foldMaxScore score preview cands 0) with _ | e1
      · rw [hfind] at hfst
        exact absurd hfst (by simp)
      · rw [hfind] at hfst
        have hb : b' = e1.1 := by
          simpa using hfst
        have h1 : 1 ≤ e1.1 := hpos e1 (List.mem_of_find?_eq_some hfind)
        show (if b' ≠ 0 ∧ foldMaxScore score preview cands 0 ≥ 65 then
            some (b', foldMaxScore score preview cands 0) else none) = _
        by_cases hth : (65 : Nat) ≤ foldMaxScore score preview cands 0
        · rw [if_pos (⟨by omega, hth⟩ :
            b' ≠ 0 ∧ foldMaxScore score preview cands 0 ≥ 65),
            if_pos hth, hfind, hb]
          rfl
        · rw [if_neg (by omega : ¬ (b' ≠ 0 ∧
            foldMaxScore score preview cands 0 ≥ 65)), if_neg hth]

/-- Claim C6, witness: two candidates with equal stem texts under a
constant score of 65: the earliest is selected, at exactly the
threshold, and attached with the score. -/
theorem c6_selection_threshold_witness :
    simSelect scoreConst65 "A. x".data [tieEntryA, tieEntryB] = some (1, 65) := by
  rw [c6_selection_threshold scoreConst65 "A. x".data [tieEntryA, tieEntryB]
    (by decide)]
  decide

theorem mem_dedupCIAux : ∀ (l seen : List Str) (x : Str),
    x ∈ dedupCIAux seen l → x ∈ l := by
  intro l
  induction l with
  | nil => intro seen x hx; exact absurd hx (by simp [dedupCIAux])
  | cons o rest ih =>
    intro seen x hx
    rw [dedupCIAux] at hx
    by_cases hin : pyLower o ∈ seen
    · rw [if_pos hin] at hx
      exact List.mem_cons_of_mem o (ih seen x hx)
    · rw [if_neg hin] at hx
      rcases List.mem_cons.mp hx with h | h
      · exact h ▸ List.mem_cons_self o rest
      · exact List.mem_cons_of_mem o (ih _ x h)

theorem dedupCIAux_lower_nodup : ∀ (l seen : List Str),
    (∀ x ∈ dedupCIAux seen l, pyLower x ∉ seen) ∧
    ((dedupCIAux seen l).map pyLower).Nodup := by
  intro l
  induction l with
  | nil => intro seen; simp [dedupCIAux]
  | cons o rest ih =>
    intro seen
    rw [dedupCIAux]
    by_cases hin : pyLower o ∈ seen
    · rw [if_pos hin]
      exact ih seen
    · rw [if_neg hin]
      obtain ⟨ihmem, ihnd⟩ := ih (pyLower o :: seen)
      constructor
      · intro x hx
        rcases List.mem_cons.mp hx with h | h
        · exact h ▸ hin
        · intro hs
          exact ihmem x h (List.mem_cons_of_mem _ hs)
      · rw [List.map_cons]
        refine List.nodup_cons.mpr ⟨?_, ihnd⟩
        intro hmem
        rcases List.mem_map.mp hmem with ⟨x, hx, hxe⟩
        exact ihmem x hx (hxe ▸ List.mem_cons_self _ _)

/-- Every record produced by the consolidation loop of pass 3 has a
nonempty stem text, a nonempty option list whose entries are nonempty,
and options that are the case-insensitive first-occurrence
deduplication of some cleaned raw list. -/
theorem pass3Loop_shape (pq : PQ) : ∀ (keys processed : List Nat)
    (q : Collated), q ∈ pass3Loop pq keys processed →
    q.stem_text ≠ [] ∧ q.options ≠ [] ∧ (∀ o ∈ q.options, o ≠ []) ∧
    ((q.options.map pyLower).Nodup) ∧
    ∃ raw, q.options = dedupCIAux [] (cleanOptions raw) := by
  intro keys
  induction keys with
  | nil => intro processed q hq; exact absurd hq (by simp [pass3Loop])
  | cons sid rest ih =>
    intro processed q hq
    rw [pass3Loop] at hq
    by_cases hp : sid ∈ processed
    · rw [if_pos hp] at hq
      exact ih processed q hq
    · rw [if_neg hp] at hq
      cases hl : lookupPQ pq sid with
      | none => rw [hl] at hq; exact ih processed q hq
      | some qd =>
        rw [hl] at hq
        dsimp only at hq
        by_cases hcond : qd.stem_text_only ≠ [] ∧
            dedupCIAux [] (cleanOptions
              (qd.options.flatMap (fun b => b.option_texts))) ≠ []
        · rw [if_pos hcond] at hq
          rcases List.mem_cons.mp hq with h | h
          · subst h
            refine ⟨hcond.1, hcond.2, ?_, ?_, ?_⟩
            · intro o ho
              have hmem := mem_dedupCIAux _ [] o ho
              have := List.mem_filter.mp hmem
              simpa using this.2
            · exact (dedupCIAux_lower_nodup _ []).2
            · exact ⟨qd.options.flatMap (fun b => b.option_texts), rfl⟩
          · exact ih _ q h
        · rw [if_neg hcond] at hq
          exact ih processed q hq

/-- Claim C8: every collated question emitted by the heuristic grouping
has a nonempty stem text and a nonempty option list; each emitted option
is nonempty after its leading marker was stripped, and the options are
the case-insensitive first-occurrence deduplication (first-seen casing
kept) of the cleaned attached option lines, hence pairwise distinct up
to case. -/
theorem c8_output_invariants (score : Str → Str → Nat) (msgs : List Message)
    (q : Collated) (hq : q ∈ refine_grouping_with_similarity score msgs) :
    q.stem_text ≠ [] ∧ q.options ≠ [] ∧ (∀ o ∈ q.options, o ≠ []) ∧
    ((q.options.map pyLower).Nodup) ∧
    ∃ raw, q.options = dedupCIAux [] (cleanOptions raw) := by
  rw [refine_grouping_with_similarity] at hq
  by_cases hm : msgs = []
  · rw [if_pos hm] at hq
    exact absurd hq (by simp)
  · rw [if_neg hm] at hq
    exact pass3Loop_shape _ _ _ q hq

/-- Claim C8, witness: the Scenario A output record satisfies every
part of the invariant. -/
theorem c8_output_invariants_witness :
    scenarioAQ.stem_text ≠ [] ∧ scenarioAQ.options ≠ [] ∧
    (∀ o ∈ scenarioAQ.options, o ≠ []) ∧
    ((scenarioAQ.options.map pyLower).Nodup) ∧
    ∃ raw, scenarioAQ.options = dedupCIAux [] (cleanOptions raw) :=
  c8_output_invariants scoreZero scenarioAMsgs scenarioAQ (by decide)

theorem dropWhile_ws_shape (l : Str) :
    l.dropWhile isWs = [] ∨
    ∃ c t, l.dropWhile isWs = c :: t ∧ isWs c = false := by
  induction l with
  | nil => left; rfl
  | cons c t ih =>
    by_cases h : isWs c
    · simpa [List.dropWhile_cons, h] using ih
    · right
      exact ⟨c, t, by simp [List.dropWhile_cons, h], by simpa using h⟩

theorem dropTrailingWs_spec (l : Str) :
    dropTrailingWs l ++ (l.reverse.takeWhile isWs).reverse = l := by
  rw [dropTrailingWs, ← List.reverse_append, List.takeWhile_append_dropWhile,
    List.reverse_reverse]

theorem pyStrip_shape (s : Str) :
    pyStrip s = [] ∨ ∃ c t, pyStrip s = c :: t ∧ isWs c = false := by
  cases hps : pyStrip s with
  | nil => exact Or.inl rfl
  | cons c t =>
    right
    refine ⟨c, t, rfl, ?_⟩
    have hpre := dropTrailingWs_spec (s.dropWhile isWs)
    rw [pyStrip] at hps
    rw [hps] at hpre
    rcases dropWhile_ws_shape s with h0 | ⟨c', t', heq, hc'⟩
    · rw [h0] at hpre
      exact absurd hpre.symm (by simp)
    · rw [heq] at hpre
      have : c = c' := by
        have := congrArg (fun l => l.headD ' ') hpre
        simpa using this
      rw [this]
      exact hc'

theorem pyStrip_cons_ne (c : Char) (r : Str) (hc : isWs c = false) :
    pyStrip (c :: r) ≠ [] := by
  rw [pyStrip, List.dropWhile_cons, hc]
  simp only [Bool.false_eq_true, if_false]
  intro h
  rw [dropTrailingWs] at h
  have h2 : (c :: r).reverse.dropWhile isWs = [] := by
    have := congrArg List.reverse h
    simpa using this
  have h3 := List.dropWhile_eq_nil_iff.mp h2 c (by simp)
  rw [hc] at h3
  exact Bool.noConfusion h3

theorem joinNL_cons (x : Str) (xs : List Str) :
    ∃ r, joinNL (x :: xs) = x ++ r := by
  cases xs with
  | nil => exact ⟨[], by simp [joinNL]⟩
  | cons y ys => exact ⟨'\n' :: joinNL (y :: ys), rfl⟩

/-- Every line accumulated on the stem side of the pass 1 partition is
the nonempty strip of something. -/
theorem partitionLoop_stem_shape : ∀ (lines sAcc oAcc : List Str) (flag : Bool),
    (∀ l ∈ sAcc, (∃ raw, l = pyStrip raw) ∧ l ≠ []) →
    ∀ l ∈ (partitionLoop lines sAcc oAcc flag).1,
      (∃ raw, l = pyStrip raw) ∧ l ≠ [] := by
  intro lines
  induction lines with
  | nil =>
    intro sAcc oAcc flag hAcc l hl
    rw [partitionLoop] at hl
    exact hAcc l hl
  | cons l0 rest ih =>
    intro sAcc oAcc flag hAcc l hl
    rw [partitionLoop] at hl
    have hext : ∀ (oAcc' : List Str) (flag' : Bool),
        pyStrip l0 ≠ [] →
        l ∈ (partitionLoop rest (sAcc ++ [pyStrip l0]) oAcc' flag').1 →
        (∃ raw, l = pyStrip raw) ∧ l ≠ [] := by
      intro oAcc' flag' hne hmem
      refine ih _ _ _ ?_ l hmem
      intro x hx
      rcases List.mem_append.mp hx with h | h
      · exact hAcc x h
      · have hx0 : x = pyStrip l0 := by simpa using h
        exact ⟨⟨l0, hx0⟩, hx0 ▸ hne⟩
    by_cases h1 : pyStrip l0 = [] ∨ isOnlyMarker (pyStrip l0) = true
    · rw [if_pos h1] at hl
      exact ih _ _ _ hAcc l hl
    · rw [if_neg h1] at hl
      have hne : pyStrip l0 ≠ [] := fun h => h1 (Or.inl h)
      by_cases h2 : isOptionMarker (pyStrip l0) = true
      · rw [if_pos h2] at hl
        exact ih _ _ _ hAcc l hl
      · rw [if_neg h2] at hl
        by_cases h3 : ¬ flag = true ∧ sAcc ≠ [] ∧ (pyStrip l0).length < 80
        · rw [if_pos h3] at hl
          by_cases h4 : (sAcc.getLastD []).length > 50
          · rw [if_pos h4] at hl
            exact ih _ _ _ hAcc l hl
          · rw [if_neg h4] at hl
            exact hext _ _ hne hl
        · rw [if_neg h3] at hl
          by_cases h5 : flag = true
          · rw [if_pos h5] at hl
            exact ih _ _ _ hAcc l hl
          · rw [if_neg h5] at hl
            exact hext _ _ hne hl

/-- Every line accumulated on the option side of the pass 1 partition
comes from the accumulator or is the strip of an input line. -/
theorem partitionLoop_opts_shape : ∀ (lines sAcc oAcc : List Str) (flag : Bool),
    ∀ o ∈ (partitionLoop lines sAcc oAcc flag).2,
      o ∈ oAcc ∨ ∃ raw ∈ lines, o = pyStrip raw := by
  intro lines
  induction lines with
  | nil =>
    intro sAcc oAcc flag o ho
    rw [partitionLoop] at ho
    exact Or.inl ho
  | cons l0 rest ih =>
    intro sAcc oAcc flag o ho
    rw [partitionLoop] at ho
    have step : ∀ (sAcc' : List Str) (flag' : Bool),
        o ∈ (partitionLoop rest sAcc' (oAcc ++ [pyStrip l0]) flag').2 →
        o ∈ oAcc ∨ ∃ raw ∈ l0 :: rest, o = pyStrip raw := by
      intro sAcc' flag' hmem
      rcases ih sAcc' _ flag' o hmem with h | ⟨raw, hraw, he⟩
      · rcases List.mem_append.mp h with h' | h'
        · exact Or.inl h'
        · exact Or.inr ⟨l0, List.mem_cons_self _ _, by simpa using h'⟩
      · exact Or.inr ⟨raw, List.mem_cons_of_mem _ hraw, he⟩
    have keep : ∀ (sAcc' : List Str) (flag' : Bool),
        o ∈ (partitionLoop rest sAcc' oAcc flag').2 →
        o ∈ oAcc ∨ ∃ raw ∈ l0 :: rest, o = pyStrip raw := by
      intro sAcc' flag' hmem
      rcases ih sAcc' _ flag' o hmem with h | ⟨raw, hraw, he⟩
      · exact Or.inl h
      · exact Or.inr ⟨raw, List.mem_cons_of_mem _ hraw, he⟩
    by_cases h1 : pyStrip l0 = [] ∨ isOnlyMarker (pyStrip l0) = true
    · rw [if_pos h1] at ho
      exact keep _ _ ho
    · rw [if_neg h1] at ho
      by_cases h2 : isOptionMarker (pyStrip l0) = true
      · rw [if_pos h2] at ho
        exact step _ _ ho
      · rw [if_neg h2] at ho
        by_cases h3 : ¬ flag = true ∧ sAcc ≠ [] ∧ (pyStrip l0).length < 80
        · rw [if_pos h3] at ho
          by_cases h4 : (sAcc.getLastD []).length > 50
          · rw [if_pos h4] at ho
            exact step _ _ ho
          · rw [if_neg h4] at ho
            exact keep _ _ ho
        · rw [if_neg h3] at ho
          by_cases h5 : flag = true
          · rw [if_pos h5] at ho
            exact step _ _ ho
          · rw [if_neg h5] at ho
            exact keep _ _ ho

/-- Claim C10, amended: when every non-blank line of a stem message is
classified as an internal option (no stem lines remain), stem_text_only
falls back to the entire original text stripped — so the recorded text
duplicates the internal option lines, which are themselves stripped
lines of that same text; consequently stem_text_only is nonempty for
every stem whose original text is nonempty after stripping (an original
text of whitespace only still yields an empty stem_text_only). -/
theorem c10_fallback_amended (m : Message) :
    ((stemPartition m).1 = [] →
      stemTextOnlyOf m = pyStrip m.original_text ∧
      ∀ o ∈ (stemPartition m).2,
        ∃ raw ∈ pySplitlines m.original_text, o = pyStrip raw) ∧
    (pyStrip m.original_text ≠ [] → stemTextOnlyOf m ≠ []) := by
  constructor
  · intro h
    constructor
    · rw [stemTextOnlyOf, h]
      simp [joinNL, pyStrip, dropTrailingWs]
    · intro o ho
      rcases partitionLoop_opts_shape (pySplitlines m.original_text) [] [] false
          o ho with hc | ⟨raw, hraw, he⟩
      · exact absurd hc (by simp)
      · exact ⟨raw, hraw, he⟩
  · intro hne
    rw [stemTextOnlyOf]
    cases hpart : (stemPartition m).1 with
    | nil =>
      have hj : pyStrip (joinNL ([] : List Str)) = [] := by
        simp [joinNL, pyStrip, dropTrailingWs]
      rw [hj]
      simpa using hne
    | cons x xs =>
      have hmem : x ∈ (partitionLoop (pySplitlines m.original_text) [] [] false).1 := by
        have hsp : partitionLoop (pySplitlines m.original_text) [] [] false =
            stemPartition m := rfl
        rw [hsp, hpart]
        exact List.mem_cons_self _ _
      have hx := partitionLoop_stem_shape (pySplitlines m.original_text) [] [] false
        (by simp) x hmem
      obtain ⟨⟨raw, hxraw⟩, hxne⟩ := hx
      rcases pyStrip_shape raw with h0 | ⟨c, t, hct, hc⟩
      · rw [← hxraw] at h0
        exact absurd h0 hxne
      · rw [← hxraw] at hct
        obtain ⟨r, hjoin⟩ := joinNL_cons x xs
        have hj : joinNL (x :: xs) = c :: (t ++ r) := by
          rw [hjoin, hct]
          simp
        rw [hj, if_pos (pyStrip_cons_ne c (t ++ r) hc)]
        exact pyStrip_cons_ne c (t ++ r) hc

/-- Claim C10 amended, witness: a stem made of one marked option line
takes the fallback and its recorded text is nonempty. -/
theorem c10_fallback_amended_witness :
    stemTextOnlyOf onlyOptionStem = pyStrip onlyOptionStem.original_text ∧
    stemTextOnlyOf onlyOptionStem ≠ [] :=
  ⟨((c10_fallback_amended onlyOptionStem).1 (by decide)).1,
   (c10_fallback_amended onlyOptionStem).2 (by decide)⟩

theorem dedupQuestionsAux_find : ∀ (qs : List GenQ) (seen : List Str)
    (q : GenQ), q ∈ dedupQuestionsAux seen qs →
    normStem q ∉ seen ∧
    qs.find? (fun p => normStem p == normStem q) = some q := by
  intro qs
  induction qs with
  | nil => intro seen q hq; exact absurd hq (by simp [dedupQuestionsAux])
  | cons x rest ih =>
    intro seen q hq
    rw [dedupQuestionsAux] at hq
    by_cases hin : normStem x ∈ seen
    · rw [if_pos hin] at hq
      obtain ⟨hnot, hfind⟩ := ih seen q hq
      refine ⟨hnot, ?_⟩
      rw [List.find?_cons_of_neg, hfind]
      simp only [beq_iff_eq]
      intro he
      exact hnot (he ▸ hin)
    · rw [if_neg hin] at hq
      rcases List.mem_cons.mp hq with h | h
      · subst h
        exact ⟨hin, by rw [List.find?_cons_of_pos _ (by simp)]⟩
      · obtain ⟨hnot, hfind⟩ := ih _ q h
        have hne : normStem x ≠ normStem q := fun he =>
          hnot (he ▸ List.mem_cons_self _ _)
        refine ⟨fun hs => hnot (List.mem_cons_of_mem _ hs), ?_⟩
        rw [List.find?_cons_of_neg, hfind]
        simpa using hne

theorem dedupQuestionsAux_norm_nodup : ∀ (qs : List GenQ) (seen : List Str),
    ((dedupQuestionsAux seen qs).map normStem).Nodup := by
  intro qs
  induction qs with
  | nil => intro seen; simp [dedupQuestionsAux]
  | cons x rest ih =>
    intro seen
    rw [dedupQuestionsAux]
    by_cases hin : normStem x ∈ seen
    · rw [if_pos hin]
      exact ih seen
    · rw [if_neg hin]
      rw [List.map_cons]
      refine List.nodup_cons.mpr ⟨?_, ih _⟩
      intro hmem
      rcases List.mem_map.mp hmem with ⟨y, hy, hye⟩
      have := (dedupQuestionsAux_find rest (normStem x :: seen) y hy).1
      exact this (hye ▸ List.mem_cons_self _ _)

/-- Claim C5, amended: text-normalised stem deduplication lives in the
result-combination step of the generative path (processing.py), not in
the heuristic grouping: there, among entries whose stem texts normalise
(lowercased, trimmed) to the same string only the first-encountered one
survives, with its own options, and the surviving normalised texts are
pairwise distinct. -/
theorem c5_combine_dedup_amended (qs : List GenQ) :
    ((combineResults qs).map normStem).Nodup ∧
    ∀ q ∈ combineResults qs,
      qs.find? (fun p => normStem p == normStem q) = some q := by
  refine ⟨dedupQuestionsAux_norm_nodup qs [], ?_⟩
  intro q hq
  exact (dedupQuestionsAux_find qs [] q hq).2

/-- Claim C5 amended, witness: of two entries with the same normalised
stem only the first survives the combination step. -/
theorem c5_combine_dedup_amended_witness :
    combineResults [genDup1, genDup2] = [genDup1] ∧
    ([genDup1, genDup2].find?
      (fun p => normStem p == normStem genDup1) = some genDup1) := by
  refine ⟨by decide, ?_⟩
  exact (c5_combine_dedup_amended [genDup1, genDup2]).2 genDup1 (by decide)

theorem mem_addId_self (s : List Nat) (i : Nat) : i ∈ addId s i := by
  rw [addId]
  by_cases h : i ∈ s
  · rw [if_pos h]; exact h
  · rw [if_neg h]; exact List.mem_cons_self _ _

theorem mem_addId_of_mem (s : List Nat) (i a : Nat) (h : a ∈ s) :
    a ∈ addId s i := by
  rw [addId]
  by_cases hi : i ∈ s
  · rw [if_pos hi]; exact h
  · rw [if_neg hi]; exact List.mem_cons_of_mem _ h

theorem mem_insertEntry : ∀ (pq : PQ) (k : Nat) (v : QData) (e : Nat × QData),
    e ∈ insertEntry pq k v → e = (k, v) ∨ e ∈ pq := by
  intro pq
  induction pq with
  | nil =>
    intro k v e he
    rw [insertEntry] at he
    exact Or.inl (by simpa using he)
  | cons x t ih =>
    intro k v e he
    rw [insertEntry] at he
    by_cases hk : x.1 = k
    · rw [if_pos hk] at he
      rcases List.mem_cons.mp he with h | h
      · exact Or.inl h
      · exact Or.inr (List.mem_cons_of_mem _ h)
    · rw [if_neg hk] at he
      rcases List.mem_cons.mp he with h | h
      · exact Or.inr (h ▸ List.mem_cons_self _ _)
      · rcases ih k v e h with h' | h'
        · exact Or.inl h'
        · exact Or.inr (List.mem_cons_of_mem _ h')

theorem keys_insertEntry_mem : ∀ (pq : PQ) (k : Nat) (v : QData),
    k ∈ pq.map (fun e => e.1) →
    (insertEntry pq k v).map (fun e => e.1) = pq.map (fun e => e.1) := by
  intro pq
  induction pq with
  | nil => intro k v hk; exact absurd hk (by simp)
  | cons x t ih =>
    intro k v hk
    rw [insertEntry]
    by_cases hx : x.1 = k
    · rw [if_pos hx]
      simp [hx]
    · rw [if_neg hx]
      have hk' : k ∈ t.map (fun e => e.1) := by
        rcases List.mem_cons.mp hk with h | h
        · exact absurd h.symm hx
        · exact h
      simp [ih k v hk']

theorem keys_insertEntry_not_mem : ∀ (pq : PQ) (k : Nat) (v : QData),
    k ∉ pq.map (fun e => e.1) →
    (insertEntry pq k v).map (fun e => e.1) = pq.map (fun e => e.1) ++ [k] := by
  intro pq
  induction pq with
  | nil => intro k v _; simp [insertEntry]
  | cons x t ih =>
    intro k v hk
    rw [insertEntry]
    have hx : ¬ x.1 = k := by
      intro h
      exact hk (by simp [h])
    rw [if_neg hx]
    have hk' : k ∉ t.map (fun e => e.1) := by
      intro h
      exact hk (List.mem_cons_of_mem _ h)
    simp [ih k v hk']

theorem pass1Inv_insert (pq : PQ) (assoc : List Nat) (k : Nat) (v : QData)
    (assoc' : List Nat) (hinv : Pass1Inv pq assoc)
    (hsub : ∀ a ∈ assoc, a ∈ assoc')
    (hv : v.options.map (fun b => b.source_message_id) = [] ∨
      (v.options.map (fun b => b.source_message_id) = [k] ∧ k ∈ assoc')) :
    Pass1Inv (insertEntry pq k v) assoc' := by
  obtain ⟨hkeys, hsh⟩ := hinv
  constructor
  · by_cases hk : k ∈ pq.map (fun e => e.1)
    · rw [keys_insertEntry_mem pq k v hk]
      exact hkeys
    · rw [keys_insertEntry_not_mem pq k v hk]
      refine List.nodup_append.mpr ⟨hkeys, List.nodup_singleton k, ?_⟩
      intro a ha hb
      have : a = k := by simpa using hb
      exact hk (this ▸ ha)
  · intro e he
    rcases mem_insertEntry pq k v e he with h | h
    · subst h
      exact hv
    · rcases hsh e h with h' | ⟨h1, h2⟩
      · exact Or.inl h'
      · exact Or.inr ⟨h1, hsub _ h2⟩

theorem pass1Loop_inv : ∀ (msgs : List Message) (pq : PQ) (assoc : List Nat),
    Pass1Inv pq assoc →
    Pass1Inv (pass1Loop msgs pq assoc).1 (pass1Loop msgs pq assoc).2 := by
  intro msgs
  induction msgs with
  | nil =>
    intro pq assoc h
    rw [pass1Loop]
    exact h
  | cons m rest ih =>
    intro pq assoc h
    rw [pass1Loop]
    by_cases hs : m.is_potential_stem = true
    · rw [if_pos hs]
      dsimp only
      by_cases hint : (stemPartition m).2 ≠ []
      · rw [if_pos hint, if_pos hint]
        refine ih _ _ (pass1Inv_insert pq assoc m.id _ _ h
          (fun a ha => mem_addId_of_mem _ _ _ ha) (Or.inr ⟨by simp, ?_⟩))
        exact mem_addId_self _ _
      · rw [if_neg hint, if_neg hint]
        exact ih _ _ (pass1Inv_insert pq assoc m.id _ _ h
          (fun a ha => ha) (Or.inl (by simp)))
    · rw [if_neg hs]
      exact ih pq assoc h

theorem allSources_cons (e : Nat × QData) (t : PQ) :
    allSources (e :: t) =
      e.2.options.map (fun b => b.source_message_id) ++ allSources t := rfl

theorem allSources_sub_keys : ∀ (pq : PQ),
    (∀ e ∈ pq, e.2.options.map (fun b => b.source_message_id) = [] ∨
      e.2.options.map (fun b => b.source_message_id) = [e.1]) →
    ∀ s ∈ allSources pq, s ∈ pq.map (fun e => e.1) := by
  intro pq
  induction pq with
  | nil =>
    intro _ s hs
    exact absurd hs (by simp [allSources])
  | cons e t ih =>
    intro hsh s hs
    rw [allSources_cons] at hs
    rcases List.mem_append.mp hs with h | h
    · rcases hsh e (List.mem_cons_self _ _) with h0 | h0
      · rw [h0] at h
        exact absurd h (by simp)
      · rw [h0] at h
        have hse : s = e.1 := by simpa using h
        rw [List.map_cons, hse]
        exact List.mem_cons_self _ _
    · exact List.mem_cons_of_mem _
        (ih (fun x hx => hsh x (List.mem_cons_of_mem _ hx)) s h)

theorem sources_nodup_of_shape : ∀ (pq : PQ),
    (pq.map (fun e => e.1)).Nodup →
    (∀ e ∈ pq, e.2.options.map (fun b => b.source_message_id) = [] ∨
      e.2.options.map (fun b => b.source_message_id) = [e.1]) →
    (allSources pq).Nodup := by
  intro pq
  induction pq with
  | nil => intro _ _; simp [allSources]
  | cons e t ih =>
    intro hkeys hsh
    rw [allSources_cons]
    have hkt : (t.map (fun e => e.1)).Nodup := (List.nodup_cons.mp hkeys).2
    have hnd := ih hkt (fun x hx => hsh x (List.mem_cons_of_mem _ hx))
    rcases hsh e (List.mem_cons_self _ _) with h0 | h0
    · rw [h0]
      simpa using hnd
    · rw [h0, List.singleton_append]
      refine List.nodup_cons.mpr ⟨?_, hnd⟩
      intro hmem
      have := allSources_sub_keys t
        (fun x hx => hsh x (List.mem_cons_of_mem _ hx)) e.1 hmem
      exact (List.nodup_cons.mp hkeys).1 this

theorem sources_mem_assoc : ∀ (pq : PQ) (assoc : List Nat),
    (∀ e ∈ pq, e.2.options.map (fun b => b.source_message_id) = [] ∨
      (e.2.options.map (fun b => b.source_message_id) = [e.1] ∧ e.1 ∈ assoc)) →
    ∀ s ∈ allSources pq, s ∈ assoc := by
  intro pq
  induction pq with
  | nil =>
    intro assoc _ s hs
    exact absurd hs (by simp [allSources])
  | cons e t ih =>
    intro assoc hsh s hs
    rw [allSources_cons] at hs
    rcases List.mem_append.mp hs with h | h
    · rcases hsh e (List.mem_cons_self _ _) with h0 | ⟨h0, hmm⟩
      · rw [h0] at h
        exact absurd h (by simp)
      · rw [h0] at h
        have hse : s = e.1 := by simpa using h
        exact hse ▸ hmm
    · exact ih assoc (fun x hx => hsh x (List.mem_cons_of_mem _ hx)) s h

theorem pass1Inv_sourcesInv (pq : PQ) (assoc : List Nat)
    (h : Pass1Inv pq assoc) : SourcesInv pq assoc := by
  obtain ⟨hkeys, hsh⟩ := h
  refine ⟨sources_nodup_of_shape pq hkeys
    (fun e he => (hsh e he).imp (fun x => x) And.left), ?_⟩
  exact sources_mem_assoc pq assoc hsh

theorem allSources_appendBlock : ∀ (pq : PQ) (k : Nat) (b : OptionBlock),
    allSources (appendBlock pq k b) = allSources pq ∨
    (allSources (appendBlock pq k b)).Perm
      (b.source_message_id :: allSources pq) := by
  intro pq
  induction pq with
  | nil => intro k b; left; rfl
  | cons e t ih =>
    intro k b
    rw [appendBlock]
    by_cases hk : e.1 = k
    · rw [if_pos hk]
      right
      rw [allSources_cons, allSources_cons]
      simp only [List.map_append]
      rw [List.append_assoc]
      simp only [List.map_cons, List.map_nil, List.singleton_append]
      exact List.perm_middle
    · rw [if_neg hk]
      rcases ih k b with h | h
      · left
        rw [allSources_cons, allSources_cons, h]
      · right
        rw [allSources_cons, allSources_cons]
        exact (h.append_left (e.2.options.map
          (fun b => b.source_message_id))).trans List.perm_middle

theorem sourcesInv_attach (pq : PQ) (assoc : List Nat) (k : Nat)
    (b : OptionBlock) (hinv : SourcesInv pq assoc)
    (hb : b.source_message_id ∉ assoc) :
    SourcesInv (appendBlock pq k b) (addId assoc b.source_message_id) := by
  obtain ⟨hnd, hmem⟩ := hinv
  have hbs : b.source_message_id ∉ allSources pq := fun h => hb (hmem _ h)
  rcases allSources_appendBlock pq k b with h | h
  · exact ⟨h ▸ hnd, fun s hs =>
      mem_addId_of_mem _ _ _ (hmem s (h ▸ hs))⟩
  · constructor
    · exact h.nodup_iff.mpr (List.nodup_cons.mpr ⟨hbs, hnd⟩)
    · intro s hs
      rcases List.mem_cons.mp (h.mem_iff.mp hs) with h' | h'
      · exact h' ▸ mem_addId_self _ _
      · exact mem_addId_of_mem _ _ _ (hmem s h')

theorem pass2Step_inv (score : Str → Str → Nat) (prev : Option Message)
    (m : Message) (pq : PQ) (assoc : List Nat) (h : SourcesInv pq assoc) :
    SourcesInv (pass2Step score prev m pq assoc).1
      (pass2Step score prev m pq assoc).2 := by
  rw [pass2Step]
  by_cases h1 : m.is_potential_stem = true ∨ m.id ∈ assoc
  · rw [if_pos h1]
    exact h
  · rw [if_neg h1]
    have hid : m.id ∉ assoc := fun hm => h1 (Or.inr hm)
    dsimp only
    by_cases h2 : extract_options_from_text m.original_text ≠ []
    · rw [if_pos h2]
      cases hadj : adjacentStemId pq prev with
      | some pid =>
        exact sourcesInv_attach pq assoc pid _ h hid
      | none =>
        cases hsim : simSelect score
            (optionsPreview (extract_options_from_text m.original_text))
            (candEntries pq m.id m.timestamp) with
        | some bh =>
          exact sourcesInv_attach pq assoc bh.1 _ h hid
        | none =>
          exact h
    · rw [if_neg h2]
      exact h

theorem pass2Loop_inv (score : Str → Str → Nat) : ∀ (msgs : List Message)
    (prev : Option Message) (st : PQ × List Nat),
    SourcesInv st.1 st.2 →
    SourcesInv (pass2Loop score prev msgs st).1
      (pass2Loop score prev msgs st).2 := by
  intro msgs
  induction msgs with
  | nil =>
    intro prev st h
    rw [pass2Loop]
    exact h
  | cons m rest ih =>
    intro prev st h
    rw [pass2Loop]
    exact ih (some m) _ (pass2Step_inv score prev m st.1 st.2 h)

/-- Claim C9: across one whole run of the refined grouping, the option
blocks attached to all stems carry pairwise distinct source message
ids — once a message provides options its id enters the associated set
and it is never consumed again. -/
theorem c9_distinct_sources (score : Str → Str → Nat) (msgs : List Message) :
    (allSources (pass2Loop score none msgs (pass1Loop msgs [] [])).1).Nodup := by
  have h1 : Pass1Inv [] [] := ⟨List.nodup_nil, by simp⟩
  have h2 := pass1Loop_inv msgs [] [] h1
  have h3 := pass1Inv_sourcesInv _ _ h2
  exact (pass2Loop_inv score msgs none _ h3).1

end MCQ
